import Mathlib

attribute [local semireducible] Rat.mul Rat.add Rat.sub Rat.inv

/-!
Shallow embedding of the mirror-proxy program (src/docker/sum/main.go):
the adaptive upstream selector (`URLManager`), the chunked cache writer and
reader, the background verification pass, and the request-forwarding loop.

Conventions of the embedding:
* Go strings are Lean `String`s; byte streams are `List ℕ`.
* Go `int`/`int64` are `ℤ`; byte counts are `ℕ`.
* Go `float64` arithmetic on weights and ratios is modelled with exact `ℚ`.
  The one place where IEEE-754 special values decide control flow is the
  ratio `float64(Load) / Weight` in `URLManager.Get`; it is modelled by
  `FRatio`, which keeps NaN and the infinities explicit so that division by
  a zero weight behaves as in the compiled program.
* The filesystem is an association list from path to file contents,
  mirroring the flat naming scheme in the `cache/` directory.
-/

/-- A file in the cache directory: raw bytes, or the two-field text record
`"Parts: %d\nTotalSize: %d\n"` that the split writer produces (kept
structured here; `recordRender` gives its byte rendering). -/
inductive FileData where
  | bytes (b : List ℕ)
  | record (parts : ℕ) (total : ℕ)
deriving DecidableEq, Repr

/-- The byte rendering of a record file, as written by
`fmt.Sprintf("Parts: %d\nTotalSize: %d\n", part, totalReadSize)`. -/
def recordRender (p t : ℕ) : List ℕ :=
  ("Parts: " ++ Nat.repr p ++ "\nTotalSize: " ++ Nat.repr t ++ "\n").data.map Char.toNat

/-- Contents of a file when opened and read as bytes. -/
def FileData.asBytes : FileData → List ℕ
  | .bytes b => b
  | .record p t => recordRender p t

/-- `fmt.Fscanf(recordFile, "Parts: %d\nTotalSize: %d\n", ...)`: a record
file yields its two fields; on a non-matching file the scanned variables
keep their zero values. -/
def FileData.scanRecord : FileData → ℕ × ℕ
  | .record p t => (p, t)
  | .bytes _ => (0, 0)

/-- The cache directory: path ↦ contents. -/
abbrev FS : Type := List (String × FileData)

/-- `os.Open`/`os.Stat`: the first entry with the given path, if any. -/
def fsGet : FS → String → Option FileData
  | [], _ => none
  | (p, d) :: t, k => if p = k then some d else fsGet t k

/-- `os.Remove`: drop every entry at the given path. -/
def fsRemove (fs : FS) (k : String) : FS :=
  List.filter (fun e => decide (e.1 ≠ k)) fs

/-- Character class `[a-fA-F0-9]` of the hash-extraction regexp. -/
def isHexCh (c : Char) : Bool :=
  ('0' ≤ c && c ≤ '9') || ('a' ≤ c && c ≤ 'f') || ('A' ≤ c && c ≤ 'F')

/-- The literal part of the regexp `sha256:([a-fA-F0-9]+)`. -/
def shaMarker : List Char := ['s', 'h', 'a', '2', '5', '6', ':']

/-- `regexp.FindStringSubmatch` for `sha256:([a-fA-F0-9]+)`: the capture of
the leftmost match — the maximal hex run after the first occurrence of
`sha256:` that is followed by at least one hex character. -/
def findShaCapture : List Char → Option (List Char)
  | [] => none
  | c :: rest =>
    if shaMarker.isPrefixOf (c :: rest) then
      let run := ((c :: rest).drop 7).takeWhile isHexCh
      if run.isEmpty then findShaCapture rest else some run
    else findShaCapture rest

/-- The final segment of `strings.Split(urlPath, "/")`. -/
def lastSeg : List Char → List Char :=
  fun cs => cs.foldl (fun acc c => if c = '/' then [] else acc ++ [c]) []

/-- `extractHashFromURL`: the regexp capture if the path contains
`sha256:<hex>`, otherwise the last `/`-separated segment. -/
def extractHashFromURL (urlPath : String) : String :=
  match findShaCapture urlPath.data with
  | some run => ⟨run⟩
  | none => ⟨lastSeg urlPath.data⟩

/-- `getCacheFilePath`: `filepath.Join("cache", hash + ".dat")`. -/
def getCacheFilePath (urlPath : String) : String :=
  "cache/" ++ (extractHashFromURL urlPath ++ ".dat")

/-- `getCacheFilePathWithPart`:
`filepath.Join("cache", fmt.Sprintf("%s_part_%d.dat", hash, part))`. -/
def getCacheFilePathWithPart (urlPath : String) (part : ℕ) : String :=
  "cache/" ++ (extractHashFromURL urlPath ++ ("_part_" ++ (Nat.repr part ++ ".dat")))

/-- `getRecordFilePath`:
`filepath.Join("cache", fmt.Sprintf("%s_record.txt", hash))`. -/
def getRecordFilePath (urlPath : String) : String :=
  "cache/" ++ (extractHashFromURL urlPath ++ "_record.txt")

/-- `const chunkSize = 100 * 1024 * 1024`. -/
def chunkSize : ℕ := 100 * 1024 * 1024

/-- `const bufSize = 64 * 1024`. -/
def bufSize : ℕ := 64 * 1024

/-- One entry of `URLManager.urls` (`URLInfo`): URL, dead flag, in-flight
load (`int`) and dynamic weight (`float64`, modelled in `ℚ`). -/
structure Mirror where
  url : String
  dead : Bool
  load : ℤ
  weight : ℚ
deriving DecidableEq, Repr

/-- `AddURL` over a whole configuration list: each URL starts alive with
weight 1 and load 0. -/
def mkInit (us : List String) : List Mirror :=
  us.map (fun u => ⟨u, false, 0, 1⟩)

/-- The value of a `float64` ratio `float64(Load) / Weight`: a finite
rational, an infinity, or NaN. -/
inductive FRatio where
  | nan
  | pinf
  | ninf
  | fin (q : ℚ)
deriving DecidableEq, Repr

/-- `math.MaxFloat64` as an exact rational, the initial `minLoadRatio`:
the integer `(2^53 - 1) * 2^971` (see `maxFloat64_eq`), given by its
digits so that comparisons against it evaluate. -/
def maxFloat64 : ℚ :=
  ⟨179769313486231570814527423731704356798070567525844996598917476803157260780028538760589558632766878171540458953514382464234321326889464182768467546703537516986049910576551282076245490090389328944075868508455133942304583236903222948165808559332123348274797826204144723168738177180919299881250404026184124858368, 1, one_ne_zero, Nat.coprime_one_right _⟩

/-- IEEE-754 `<` on ratio values: NaN compares false with everything. -/
def frLt : FRatio → FRatio → Bool
  | .nan, _ => false
  | _, .nan => false
  | .ninf, .ninf => false
  | .ninf, _ => true
  | _, .ninf => false
  | .fin a, .fin b => decide (a < b)
  | .fin _, .pinf => true
  | .pinf, _ => false

/-- `float64(urlInfo.Load) / urlInfo.Weight`: division by a (positive)
zero weight gives ±∞, and 0/0 gives NaN, exactly as in `float64`. -/
def mkRatio (load : ℤ) (weight : ℚ) : FRatio :=
  if weight = 0 then
    if load = 0 then .nan else if 0 < load then .pinf else .ninf
  else .fin ((load : ℚ) / weight)

/-- The running best candidate's ratio; `minLoadRatio` starts at
`math.MaxFloat64`. -/
def bestRatio : Option (ℕ × FRatio) → FRatio
  | none => .fin maxFloat64
  | some (_, r) => r

/-- One step of `Get`'s scan at slice index `idx`: a live mirror whose
ratio is strictly below the current minimum becomes the candidate. -/
def scanStep (s : List Mirror) (best : Option (ℕ × FRatio)) (idx : ℕ) :
    Option (ℕ × FRatio) :=
  match s[idx]? with
  | none => best
  | some m =>
    if !m.dead && frLt (mkRatio m.load m.weight) (bestRatio best) then
      some (idx, mkRatio m.load m.weight)
    else best

/-- The indices visited by the scan: `(startIndex + i) % n` for `i < n`. -/
def scanIdx (n start : ℕ) : List ℕ :=
  (List.range n).map (fun i => (start + i) % n)

/-- The index selected by one full scan of `Get`, if any. -/
def scanSel (s : List Mirror) (start : ℕ) : Option ℕ :=
  ((scanIdx s.length start).foldl (scanStep s) none).map Prod.fst

/-- Replace the element at an index (the selected mirror is mutated under
its own lock). -/
def modifyIdx : List Mirror → ℕ → (Mirror → Mirror) → List Mirror
  | [], _, _ => []
  | m :: t, 0, f => f m :: t
  | m :: t, n + 1, f => m :: modifyIdx t n f

/-- One iteration of `Get`'s outer loop body, after the scan: increment the
selected mirror's load and return its URL. -/
def selectOnce (s : List Mirror) (start : ℕ) : Option (List Mirror × String) :=
  match scanSel s start with
  | none => none
  | some i =>
    match s[i]? with
    | none => none
    | some m => some (modifyIdx s i (fun x => { x with load := x.load + 1 }), m.url)

/-- `resume`: mark every mirror alive again. -/
def resume (s : List Mirror) : List Mirror :=
  s.map (fun m => { m with dead := false })

/-- `URLManager.Get`, fuelled. The source loops `for { scan; if selected
return url; resume() }` with a fresh random `startIndex` each pass
(`starts` supplies the stream of random offsets). The result is the state
paired with `none` when the loop is still running after `fuel` passes,
`some none` for the `return ""` taken when no URL is registered, and
`some (some url)` for a successful selection. -/
def getFuel : ℕ → List Mirror → (ℕ → ℕ) → List Mirror × Option (Option String)
  | 0, s, _ => (s, none)
  | fuel + 1, s, starts =>
    if s.length = 0 then (s, some none)
    else
      match selectOnce s (starts 0) with
      | some (s', u) => (s', some (some u))
      | none => getFuel fuel (resume s) (fun j => starts (j + 1))

/-- The spec's tier constant `k`, from its words: "k chosen by throughput
magnitude: k = 1e5 if throughput > 1e6 bytes/s, k = 1e3 if throughput >
1e9 bytes/s, otherwise k = 1e6" — the overlapping guards are read as
magnitude tiers (most specific first), the only reading in which no
clause is dead. -/
def claimK (throughput : ℚ) : ℚ :=
  if 1000000000 < throughput then 1000
  else if 1000000 < throughput then 100000
  else 1000000

/-- The body of `Done` on the matching mirror: guarded load decrement, then
`Weight = beta*float64(Load) + (1-beta)*(float64(contentLength)/responseTime/k)`
with `beta = 0.7` and the three-tier `k` (checked `> 1e9` first). -/
def doneMirror (t : ℚ) (cl : ℤ) (m : Mirror) : Mirror :=
  let load := if 0 < m.load then m.load - 1 else m.load
  let ratio : ℚ := (cl : ℚ) / t
  let k : ℚ := if 1000000000 < ratio then 1000 else if 1000000 < ratio then 100000 else 1000000
  { m with load := load, weight := (7 / 10) * (load : ℚ) + (3 / 10) * ((cl : ℚ) / t / k) }

/-- `URLManager.Done(url, responseTime, contentLength)`: update the first
mirror whose URL equals `url` exactly, then `break`. -/
def done (url : String) (t : ℚ) (cl : ℤ) : List Mirror → List Mirror
  | [] => []
  | m :: ms => if m.url = url then doneMirror t cl m :: ms else m :: done url t cl ms

/-- `URLManager.MarkDead(url)`: on the first exact URL match, set
`Dead = true` and `Load = 0`, then `break`. -/
def markDead (url : String) : List Mirror → List Mirror
  | [] => []
  | m :: ms =>
    if m.url = url then { m with dead := true, load := 0 } :: ms
    else m :: markDead url ms

/-- `proxyURL.String()` after `proxyURL.Path = r.URL.Path` and
`proxyURL.RawQuery = r.URL.RawQuery`: base, then path, then `?query` when
the query is nonempty (paths needing no percent-escaping). -/
def fullURL (base path query : String) : String :=
  base ++ path ++ (if query = "" then "" else "?" ++ query)

/-- Number of `/` characters in a string; registered mirror base URLs
(`https://host`) have exactly two. -/
def slashCount (s : String) : ℕ := s.data.count '/'

/-- The observable outcome of one upstream attempt (`client.Do`):
a transport error, or a response with status code, `ContentLength`
(`int64`, −1 when unknown) and elapsed seconds. -/
inductive Outcome where
  | transportErr
  | resp (status : ℕ) (cl : ℤ) (rt : ℚ)
deriving Repr

/-- How an iteration of `proxyRequest`'s retry loop can exit. -/
inductive FwdRes where
  | retriesEnd
  | noURLs
  | served (status : ℕ)
deriving DecidableEq, Repr

/-- The retry loop of `proxyRequest` (lines 263–318), fuelled. `outs k` is
the outcome of the `k`-th upstream attempt, `starts2 k` the stream of
random offsets used by that attempt's `Get`, and `gfuel` the fuel given to
each `Get`. The `tickets` counter is threaded exactly as the source
behaves: the source increments it only inside `defer func() { tickets++ }()`,
and deferred calls run when `proxyRequest` itself returns, so `tickets`
never changes between loop iterations. On a transport error the loop
continues with no selector update (the `MarkDead` call at that site is
commented out in the source); on a response it calls `Done` with the full
proxied URL, and additionally `MarkDead` with the full proxied URL on 404
before continuing. `none` means the loop is still running after `fuel`
iterations. -/
def forwardLoop (outs : ℕ → Outcome) (starts2 : ℕ → ℕ → ℕ) (path query : String)
    (gfuel : ℕ) : ℕ → ℕ → ℕ → List Mirror → List Mirror × Option FwdRes
  | 0, _, _, s => (s, none)
  | fuel + 1, k, tickets, s =>
    if 6 ≤ tickets then (s, some .retriesEnd)
    else
      match getFuel gfuel s (starts2 k) with
      | (s1, none) => (s1, none)
      | (s1, some none) => (s1, some .noURLs)
      | (s1, some (some target)) =>
        match outs k with
        | .transportErr => forwardLoop outs starts2 path query gfuel fuel (k + 1) tickets s1
        | .resp st cl rt =>
          let s2 := done (fullURL target path query) rt cl s1
          if st = 404 then
            forwardLoop outs starts2 path query gfuel fuel (k + 1) tickets
              (markDead (fullURL target path query) s2)
          else (s2, some (.served st))

/-- State of the split cache writer inside the streaming loop: the part
files created so far in creation order (the currently open file is the
last one), the part counter, and `totalReadSize`, which the source resets
to zero whenever it rolls to a new part. -/
structure WState where
  files : List (String × List ℕ)
  part : ℕ
  total : ℕ
deriving DecidableEq, Repr

/-- Append bytes to the most recently created file. -/
def appendLast : List (String × List ℕ) → List ℕ → List (String × List ℕ)
  | [], _ => []
  | [x], b => [(x.1, x.2 ++ b)]
  | x :: y :: t, b => x :: appendLast (y :: t) b

/-- One `resp.Body.Read` of the split branch (lines 345–361): skip empty
reads; roll to a new part file when no file is open or when appending
would exceed `chunkSize` (resetting `totalReadSize` only if a file was
open); then write the bytes and add their count to `totalReadSize`. -/
def writeChunk (urlPath : String) (s : WState) (b : List ℕ) : WState :=
  if b.length = 0 then s
  else if s.files.isEmpty || decide (chunkSize < s.total + b.length) then
    { files := s.files ++ [(getCacheFilePathWithPart urlPath s.part, b)],
      part := s.part + 1,
      total := (if s.files.isEmpty then s.total else 0) + b.length }
  else
    { s with files := appendLast s.files b, total := s.total + b.length }

/-- The whole split-branch streaming loop over a list of reads. -/
def splitWrite (urlPath : String) (chunks : List (List ℕ)) : WState :=
  chunks.foldl (writeChunk urlPath) ⟨[], 0, 0⟩

/-- The files on disk after a completed split write (lines 396–411): the
part files, plus the record file holding the final `part` counter and the
final `totalReadSize`. -/
def splitWriteFs (urlPath : String) (chunks : List (List ℕ)) : FS :=
  ((splitWrite urlPath chunks).files.map (fun x => (x.1, FileData.bytes x.2))) ++
    [(getRecordFilePath urlPath,
      FileData.record (splitWrite urlPath chunks).part (splitWrite urlPath chunks).total)]

/-- The split writer with each read abstracted to its byte count; used to
evaluate part sizes and the record on large inputs. `szOf`/`szChunk_corr`
relate it to `writeChunk`. -/
structure SzState where
  files : List ℕ
  part : ℕ
  total : ℕ
deriving DecidableEq, Repr

/-- Add a byte count to the most recently created file's size. -/
def bumpLast : List ℕ → ℕ → List ℕ
  | [], _ => []
  | [x], n => [x + n]
  | x :: y :: t, n => x :: bumpLast (y :: t) n

/-- `writeChunk` on sizes alone. -/
def szChunk (s : SzState) (n : ℕ) : SzState :=
  if n = 0 then s
  else if s.files.isEmpty || decide (chunkSize < s.total + n) then
    { files := s.files ++ [n], part := s.part + 1,
      total := (if s.files.isEmpty then s.total else 0) + n }
  else
    { s with files := bumpLast s.files n, total := s.total + n }

/-- The size abstraction of a writer state. -/
def szOf (w : WState) : SzState :=
  ⟨w.files.map (fun x => x.2.length), w.part, w.total⟩

/-- The part-reading loop of `serveFromCache` (lines 228–242), at part
index `i` with `cnt` parts left to read. Each part that opens is copied to
the client *before* the next part is opened, so on a missing part the
bytes of the earlier parts have already been written; the pair collects
(0success, bytes written to the client). -/
def readParts (fs : FS) (base : String) : ℕ → ℕ → Bool × List ℕ
  | _, 0 => (true, [])
  | i, cnt + 1 =>
    match fsGet fs (getCacheFilePathWithPart base i) with
    | none => (false, [])
    | some fd =>
      let r := readParts fs base (i + 1) cnt
      (r.1, fd.asBytes ++ r.2)

/-- `serveFromCache(w, cacheFilePath)`: look for a record file at
`getRecordFilePath(cacheFilePath)`; if absent, serve the flat file at
`cacheFilePath` (false if it does not open); if present, scan its two
fields and stream parts `0..partCount-1`, each located at
`getCacheFilePathWithPart(cacheFilePath, part)`. Returns (handled, bytes
written to the client). -/
def serveFromCache (fs : FS) (cacheFilePath : String) : Bool × List ℕ :=
  match fsGet fs (getRecordFilePath cacheFilePath) with
  | none =>
    match fsGet fs cacheFilePath with
    | none => (false, [])
    | some fd => (true, fd.asBytes)
  | some rfd => readParts fs cacheFilePath 0 rfd.scanRecord.1

/-- The bytes of parts `i..i+cnt-1` (a missing part contributes nothing);
the reference value for `readParts` results. -/
def segBytes (fs : FS) (base : String) : ℕ → ℕ → List ℕ
  | _, 0 => []
  | i, cnt + 1 =>
    (match fsGet fs (getCacheFilePathWithPart base i) with
      | none => []
      | some fd => fd.asBytes) ++ segBytes fs base (i + 1) cnt

/-- The part-collecting loop of `checkCacheFileSize`'s split branch:
concatenate parts `i..i+cnt-1`, or `none` as soon as one fails to open. -/
def readAllParts (fs : FS) (base : String) : ℕ → ℕ → Option (List ℕ)
  | _, 0 => some []
  | i, cnt + 1 =>
    match fsGet fs (getCacheFilePathWithPart base i) with
    | none => none
    | some fd =>
      match readAllParts fs base (i + 1) cnt with
      | none => none
      | some rest => some (fd.asBytes ++ rest)

/-- The deletion loop of `checkCacheFileSize`'s split branch: remove parts
`0..cnt-1` computed from `base`. -/
def removeParts (fs : FS) (base : String) : ℕ → FS
  | 0 => fs
  | cnt + 1 => fsRemove (removeParts fs base cnt) (getCacheFilePathWithPart base cnt)

/-- `checkCacheFileSize(url, contentLengthStr, logger)`, the background
verification pass. `contentLength` is the result of
`strconv.ParseInt(contentLengthStr, 10, 64)` (`none` models an empty or
unparseable Content-Length header, on which the source does nothing).
`hash` abstracts the SHA-256 hex digest of a byte stream. The source
recomputes `cacheFilePath := getCacheFilePath(url)` from its argument and
then derives the record path and the part paths from that recomputed
path, and compares the digest against `extractHashFromURL(url)`; the
embedding reproduces those computations verbatim. -/
def checkCacheFileSize (hash : List ℕ → String) (fs : FS) (url : String)
    (contentLength : Option ℤ) : FS :=
  match contentLength with
  | none => fs
  | some _ =>
    let cacheFilePath := getCacheFilePath url
    let recordFilePath := getRecordFilePath cacheFilePath
    match fsGet fs recordFilePath with
    | none =>
      match fsGet fs cacheFilePath with
      | none => fs
      | some fd =>
        if hash fd.asBytes ≠ extractHashFromURL url then fsRemove fs cacheFilePath else fs
    | some rfd =>
      match readAllParts fs cacheFilePath 0 rfd.scanRecord.1 with
      | none => fs
      | some content =>
        if hash content ≠ extractHashFromURL url then
          fsRemove (removeParts fs cacheFilePath rfd.scanRecord.1) recordFilePath
        else fs

/-- One call in an arbitrary interleaving of the selector's public
operations (claim C9's vocabulary). -/
inductive Event where
  | acquire (starts : ℕ → ℕ) (fuel : ℕ)
  | release (url : String) (t : ℚ) (cl : ℤ)
  | markDead (url : String)

/-- Apply one selector call. -/
def applyEvent (s : List Mirror) : Event → List Mirror
  | .acquire starts fuel => (getFuel fuel s starts).1
  | .release u t cl => done u t cl s
  | .markDead u => markDead u s

/-- Run a call sequence. -/
def runEvents (s : List Mirror) (es : List Event) : List Mirror :=
  es.foldl applyEvent s

/-- A selector call as issued by the composed proxy: `Done` and `MarkDead`
receive `proxyURL.String()`, the full proxied URL built from the selected
base, the request path and the raw query (claim C10's vocabulary). -/
inductive PEvent where
  | acquire (starts : ℕ → ℕ) (fuel : ℕ)
  | release (base path query : String) (t : ℚ) (cl : ℤ)
  | markDead (base path query : String)

/-- Apply one proxy-shaped selector call. -/
def applyP (s : List Mirror) : PEvent → List Mirror
  | .acquire starts fuel => (getFuel fuel s starts).1
  | .release b p q t cl => done (fullURL b p q) t cl s
  | .markDead b p q => markDead (fullURL b p q) s

/-- Run a proxy-shaped call sequence. -/
def runP (s : List Mirror) (es : List PEvent) : List Mirror :=
  es.foldl applyP s

/-- A forwarded request's calls: `Done`/`MarkDead` are built from a base
URL of scheme-and-host shape (exactly two slashes) and a nonempty request
path (which over HTTP begins with a slash). -/
def baseOk : PEvent → Bool
  | .acquire _ _ => true
  | .release b p _ _ _ => (slashCount b == 2) && (p.data.head? == some '/')
  | .markDead b p _ => (slashCount b == 2) && (p.data.head? == some '/')

/-- A representative cacheable blob request path with content hash `ab`. -/
def reqPath : String := "/v2/test/blobs/sha256:ab"

/-- The reads delivered for a 262144000-byte (250 MiB) body: 4000 reads
that each fill the 64 KiB buffer. -/
def reads250 : List (List ℕ) := List.replicate 4000 (List.replicate 65536 0)

/-- The reads delivered for a 314572800-byte (3 × `chunkSize`) body: 4800
full-buffer reads. -/
def reads300 : List (List ℕ) := List.replicate 4800 (List.replicate 65536 0)

/-- A selector state reached through the public interface in which the
only registered mirror is dead with weight exactly zero: register `"m"`,
complete one request on it with content length 0 (`Done` then recomputes
`Weight = 0.7·0 + 0.3·((0/1)/1e6) = 0`, exactly, also in `float64`), and
mark it dead. -/
def allDeadZeroWeight : List Mirror := markDead "m" (done "m" 1 0 (mkInit ["m"]))

/-- One registered mirror, the first of the list configured in `main`. -/
def oneMirror : List Mirror := mkInit ["https://yanyu.icu"]

/-- A flat cache entry whose stored bytes need not hash back to its key. -/
def corruptFlatFS : FS := [("cache/ab.dat", FileData.bytes [1, 2, 3])]

/-- A split entry, under the reader's own naming scheme for base path
`cache/ab.dat`, whose record announces 2 parts but whose part 1 file is
missing. -/
def truncatedFS : FS :=
  [(getRecordFilePath "cache/ab.dat", FileData.record 2 4),
   (getCacheFilePathWithPart "cache/ab.dat" 0, FileData.bytes [9, 8])]

/-- The same split entry with both announced parts present. -/
def completeFS : FS :=
  [(getRecordFilePath "cache/ab.dat", FileData.record 2 4),
   (getCacheFilePathWithPart "cache/ab.dat" 0, FileData.bytes [9, 8]),
   (getCacheFilePathWithPart "cache/ab.dat" 1, FileData.bytes [7, 6])]

/-- `maxFloat64` is `(2^53 - 1) * 2^971`, the value of `math.MaxFloat64`. -/
theorem maxFloat64_eq : maxFloat64 = (2 ^ 53 - 1) * 2 ^ 971 := by
  refine Rat.ext ?_ ?_ <;> norm_num [maxFloat64]

/-- A lookup misses when no entry carries the key. -/
theorem fsGet_eq_none {fs : FS} {k : String} (h : ∀ e ∈ fs, e.1 ≠ k) :
    fsGet fs k = none := by
  induction fs with
  | nil => rfl
  | cons e t ih =>
    obtain ⟨p, d⟩ := e
    simp only [fsGet]
    rw [if_neg (h (p, d) (List.mem_cons_self _ _)), ih]
    intro e he
    exact h e (List.mem_cons_of_mem _ he)

/-- The hash extracted from the blob request path `reqPath`. -/
theorem extract_reqPath : extractHashFromURL reqPath = "ab" := rfl

/-- The data of a part path for `reqPath`, exposing the variable part
index between concrete characters. -/
theorem partPath_reqPath_data (i : ℕ) :
    (getCacheFilePathWithPart reqPath i).data =
      'c' :: 'a' :: 'c' :: 'h' :: 'e' :: '/' :: 'a' :: 'b' :: '_' :: 'p' :: 'a' :: 'r' :: 't' ::
        '_' :: ((Nat.repr i).data ++ ('.' :: 'd' :: 'a' :: 't' :: [])) := by
  show ("cache/" ++ ("ab" ++ ("_part_" ++ (Nat.repr i ++ ".dat")))).data = _
  simp [String.data_append]

/-- A part path for `reqPath` never equals the record path the reader
derives from the flat cache file path (they differ at character 8). -/
theorem partPath_ne_readRec (i : ℕ) :
    getCacheFilePathWithPart reqPath i ≠ "cache/ab.dat_record.txt" := by
  intro h
  have hd := congrArg String.data h
  rw [partPath_reqPath_data] at hd
  simp at hd

/-- A part path for `reqPath` never equals the flat cache file path. -/
theorem partPath_ne_readFlat (i : ℕ) :
    getCacheFilePathWithPart reqPath i ≠ "cache/ab.dat" := by
  intro h
  have hd := congrArg String.data h
  rw [partPath_reqPath_data] at hd
  simp at hd

/-- A part path for `reqPath` never equals the record path the writer
creates (they differ at character 9). -/
theorem partPath_ne_writerRec (i : ℕ) :
    getCacheFilePathWithPart reqPath i ≠ getRecordFilePath reqPath := by
  intro h
  have hd := congrArg String.data h
  rw [partPath_reqPath_data] at hd
  have : (getRecordFilePath reqPath).data = "cache/ab_record.txt".data := rfl
  rw [this] at hd
  simp at hd

/-- Appending bytes to the last file does not change the file names. -/
theorem appendLast_map_fst (l : List (String × List ℕ)) (b : List ℕ) :
    (appendLast l b).map Prod.fst = l.map Prod.fst := by
  induction l with
  | nil => rfl
  | cons x t ih =>
    cases t with
    | nil => rfl
    | cons y t' => simp only [appendLast, List.map_cons] at ih ⊢; rw [ih]

/-- Appending bytes to the last file bumps the last size. -/
theorem appendLast_map_len (l : List (String × List ℕ)) (b : List ℕ) :
    (appendLast l b).map (fun e => e.2.length) =
      bumpLast (l.map (fun e => e.2.length)) b.length := by
  induction l with
  | nil => rfl
  | cons x t ih =>
    cases t with
    | nil => simp [appendLast, bumpLast]
    | cons y t' => simp only [appendLast, bumpLast, List.map_cons] at ih ⊢; rw [ih]

/-- The size abstraction commutes with one write step. -/
theorem szOf_writeChunk (p : String) (s : WState) (b : List ℕ) :
    szOf (writeChunk p s b) = szChunk (szOf s) b.length := by
  have hempty : (s.files.map (fun e => e.2.length)).isEmpty = s.files.isEmpty := by
    cases s.files <;> rfl
  simp only [writeChunk, szChunk, szOf, hempty]
  split
  case isTrue => rfl
  case isFalse =>
    split
    case isTrue => simp
    case isFalse => simp [appendLast_map_len]

/-- The size abstraction commutes with the whole split write. -/
theorem szOf_splitWrite (p : String) (chunks : List (List ℕ)) :
    szOf (splitWrite p chunks) =
      (chunks.map (fun b => b.length)).foldl szChunk ⟨[], 0, 0⟩ := by
  have key : ∀ (cs : List (List ℕ)) (s : WState),
      szOf (cs.foldl (writeChunk p) s) = (cs.map (fun b => b.length)).foldl szChunk (szOf s) := by
    intro cs
    induction cs with
    | nil => intro s; rfl
    | cons c t ih =>
      intro s
      simp only [List.foldl_cons, List.map_cons]
      rw [ih, szOf_writeChunk]
  exact key chunks ⟨[], 0, 0⟩

/-- Every file the split writer creates is a part path of its URL path. -/
theorem splitWrite_keys (p : String) (chunks : List (List ℕ)) :
    ∀ e ∈ (splitWrite p chunks).files, ∃ i, e.1 = getCacheFilePathWithPart p i := by
  have key : ∀ (cs : List (List ℕ)) (s : WState),
      (∀ e ∈ s.files, ∃ i, e.1 = getCacheFilePathWithPart p i) →
      ∀ e ∈ (cs.foldl (writeChunk p) s).files, ∃ i, e.1 = getCacheFilePathWithPart p i := by
    intro cs
    induction cs with
    | nil => intro s hs; exact hs
    | cons c t ih =>
      intro s hs
      refine ih (writeChunk p s c) ?_
      intro e he
      simp only [writeChunk] at he
      split at he
      case isTrue => exact hs e he
      case isFalse =>
        split at he
        case isTrue =>
          simp only [List.mem_append, List.mem_singleton] at he
          rcases he with h | h
          · exact hs e h
          · exact ⟨s.part, by rw [h]⟩
        case isFalse =>
          have : e.1 ∈ (appendLast s.files c).map Prod.fst := List.mem_map_of_mem _ he
          rw [appendLast_map_fst] at this
          obtain ⟨x, hx, hx1⟩ := List.mem_map.mp this
          obtain ⟨i, hi⟩ := hs x hx
          exact ⟨i, by rw [← hx1, hi]⟩
  exact key chunks ⟨[], 0, 0⟩ (by intro e he; cases he)

/-- Bumping the last of a list that visibly ends in `x`. -/
theorem bumpLast_append (fs : List ℕ) (x n : ℕ) :
    bumpLast (fs ++ [x]) n = fs ++ [x + n] := by
  induction fs with
  | nil => rfl
  | cons a fs' ih =>
    cases fs' with
    | nil => rfl
    | cons b fs'' => simp only [List.cons_append, List.append_eq, bumpLast] at ih ⊢; rw [ih]

/-- Running `k` further full-buffer reads inside the current part: as long
as the part stays within `chunkSize`, the sizes just accumulate. -/
theorem szRun_within (k : ℕ) :
    ∀ (j : ℕ) (fs : List ℕ) (p : ℕ), 1 ≤ j → j + k ≤ 1600 →
      (List.replicate k 65536).foldl szChunk ⟨fs ++ [j * 65536], p, j * 65536⟩ =
        ⟨fs ++ [(j + k) * 65536], p, (j + k) * 65536⟩ := by
  induction k with
  | zero => intro j fs p _ _; simp
  | succ k ih =>
    intro j fs p hj hle
    have hstep : szChunk ⟨fs ++ [j * 65536], p, j * 65536⟩ 65536 =
        ⟨fs ++ [(j + 1) * 65536], p, (j + 1) * 65536⟩ := by
      have hcond : ¬ chunkSize < j * 65536 + 65536 := by
        have : (j + 1) * 65536 ≤ 1600 * 65536 := by
          have : j + 1 ≤ 1600 := by omega
          exact Nat.mul_le_mul_right _ this
        simp only [chunkSize]
        omega
      have hfe : (fs ++ [j * 65536] : List ℕ).isEmpty = false := by
        simp [List.isEmpty_iff]
      simp only [szChunk, hfe, Bool.false_or]
      rw [if_neg (show ¬ (65536 : ℕ) = 0 from by omega)]
      rw [if_neg (show ¬ decide (chunkSize < j * 65536 + 65536) = true from by simpa using hcond)]
      rw [bumpLast_append]
      have h1 : j * 65536 + 65536 = (j + 1) * 65536 := by ring
      simp [h1]
    rw [List.replicate_succ, List.foldl_cons, hstep]
    have := ih (j + 1) fs p (by omega) (by omega)
    rw [this]
    have h2 : j + 1 + k = j + (k + 1) := by omega
    rw [h2]

/-- The first 1600 full-buffer reads fill part 0 to exactly 104857600
bytes. -/
theorem szSeg1 :
    (List.replicate 1600 (65536 : ℕ)).foldl szChunk ⟨[], 0, 0⟩ =
      ⟨[104857600], 1, 104857600⟩ := by
  have r0 : szChunk ⟨[], 0, 0⟩ 65536 = ⟨[65536], 1, 65536⟩ := by decide
  have w1 : (List.replicate 1599 (65536 : ℕ)).foldl szChunk ⟨[65536], 1, 65536⟩ =
      ⟨[104857600], 1, 104857600⟩ := by
    have h := szRun_within 1599 1 [] 1 (by norm_num) (by norm_num)
    norm_num at h
    exact h
  rw [show (1600 : ℕ) = 1 + 1599 from by norm_num]
  simp only [List.replicate_add, List.foldl_append, List.replicate_one, List.foldl_cons,
    List.foldl_nil]
  rw [r0, w1]

/-- The next 1600 reads roll to part 1 (resetting `totalReadSize`) and
fill it to 104857600 bytes. -/
theorem szSeg2 :
    (List.replicate 1600 (65536 : ℕ)).foldl szChunk ⟨[104857600], 1, 104857600⟩ =
      ⟨[104857600, 104857600], 2, 104857600⟩ := by
  have roll1 : szChunk ⟨[104857600], 1, 104857600⟩ 65536 = ⟨[104857600, 65536], 2, 65536⟩ := by
    decide
  have w2 : (List.replicate 1599 (65536 : ℕ)).foldl szChunk ⟨[104857600, 65536], 2, 65536⟩ =
      ⟨[104857600, 104857600], 2, 104857600⟩ := by
    have h := szRun_within 1599 1 [104857600] 2 (by norm_num) (by norm_num)
    norm_num at h
    exact h
  rw [show (1600 : ℕ) = 1 + 1599 from by norm_num]
  simp only [List.replicate_add, List.foldl_append, List.replicate_one, List.foldl_cons,
    List.foldl_nil]
  rw [roll1, w2]

/-- The final 800 reads roll to part 2 and fill it to 52428800 bytes. -/
theorem szSeg3 :
    (List.replicate 800 (65536 : ℕ)).foldl szChunk ⟨[104857600, 104857600], 2, 104857600⟩ =
      ⟨[104857600, 104857600, 52428800], 3, 52428800⟩ := by
  have roll2 : szChunk ⟨[104857600, 104857600], 2, 104857600⟩ 65536 =
      ⟨[104857600, 104857600, 65536], 3, 65536⟩ := by decide
  have w3 : (List.replicate 799 (65536 : ℕ)).foldl szChunk
      ⟨[104857600, 104857600, 65536], 3, 65536⟩ =
      ⟨[104857600, 104857600, 52428800], 3, 52428800⟩ := by
    have h := szRun_within 799 1 [104857600, 104857600] 3 (by norm_num) (by norm_num)
    norm_num at h
    exact h
  rw [show (800 : ℕ) = 1 + 799 from by norm_num]
  simp only [List.replicate_add, List.foldl_append, List.replicate_one, List.foldl_cons,
    List.foldl_nil]
  rw [roll2, w3]

/-- The size run of 4000 full-buffer reads (a 250 MiB body): three parts
of 104857600, 104857600 and 52428800 bytes, with the final `totalReadSize`
equal to the size of the last part, 52428800 — not the 262144000 total. -/
theorem szFinal :
    (List.replicate 4000 (65536 : ℕ)).foldl szChunk ⟨[], 0, 0⟩ =
      ⟨[104857600, 104857600, 52428800], 3, 52428800⟩ := by
  rw [show (4000 : ℕ) = 1600 + 1600 + 800 from by norm_num]
  simp only [List.replicate_add, List.foldl_append]
  rw [szSeg1, szSeg2, szSeg3]

/-- When all `cnt` parts from index `i` open, the reading loop succeeds
and streams their concatenation. -/
theorem readParts_all (fs : FS) (base : String) :
    ∀ (cnt i : ℕ),
      (∀ j, j < cnt → (fsGet fs (getCacheFilePathWithPart base (i + j))).isSome) →
      readParts fs base i cnt = (true, segBytes fs base i cnt) := by
  intro cnt
  induction cnt with
  | zero => intro i _; rfl
  | succ cnt ih =>
    intro i h
    have h0 : (fsGet fs (getCacheFilePathWithPart base i)).isSome := by
      simpa using h 0 (by omega)
    obtain ⟨fd, hfd⟩ := Option.isSome_iff_exists.mp h0
    have hrest : ∀ j, j < cnt → (fsGet fs (getCacheFilePathWithPart base (i + 1 + j))).isSome := by
      intro j hj
      have e : i + 1 + j = i + (j + 1) := by omega
      rw [e]
      exact h (j + 1) (by omega)
    simp only [readParts, segBytes, hfd, ih (i + 1) hrest]

/-- If parts `i..i+k-1` open but part `i+k` is missing and `k < cnt`, the
reading loop fails — after the bytes of the earlier parts have already
been written to the client. -/
theorem readParts_missing (fs : FS) (base : String) :
    ∀ (k cnt i : ℕ), k < cnt →
      (∀ j, j < k → (fsGet fs (getCacheFilePathWithPart base (i + j))).isSome) →
      fsGet fs (getCacheFilePathWithPart base (i + k)) = none →
      readParts fs base i cnt = (false, segBytes fs base i k) := by
  intro k
  induction k with
  | zero =>
    intro cnt i hk _ hmiss
    obtain ⟨cnt', rfl⟩ : ∃ c, cnt = c + 1 := ⟨cnt - 1, by omega⟩
    rw [Nat.add_zero] at hmiss
    simp [readParts, segBytes, hmiss]
  | succ k ih =>
    intro cnt i hk hsome hmiss
    obtain ⟨cnt', rfl⟩ : ∃ c, cnt = c + 1 := ⟨cnt - 1, by omega⟩
    have h0 : (fsGet fs (getCacheFilePathWithPart base i)).isSome := by
      simpa using hsome 0 (by omega)
    obtain ⟨fd, hfd⟩ := Option.isSome_iff_exists.mp h0
    have hrest : ∀ j, j < k → (fsGet fs (getCacheFilePathWithPart base (i + 1 + j))).isSome := by
      intro j hj
      have e : i + 1 + j = i + (j + 1) := by omega
      rw [e]
      exact hsome (j + 1) (by omega)
    have hmiss' : fsGet fs (getCacheFilePathWithPart base (i + 1 + k)) = none := by
      have e : i + 1 + k = i + (k + 1) := by omega
      rw [e]
      exact hmiss
    simp only [readParts, segBytes, hfd, ih cnt' (i + 1) (by omega) hrest hmiss']

/-- Member-wise property preservation through `modifyIdx`. -/
theorem modifyIdx_pres (P : Mirror → Prop) :
    ∀ (s : List Mirror) (i : ℕ) (f : Mirror → Mirror),
      (∀ m ∈ s, P m) → (∀ m, P m → P (f m)) → ∀ m ∈ modifyIdx s i f, P m := by
  intro s
  induction s with
  | nil => intro i f _ _ m hm; cases hm
  | cons a t ih =>
    intro i f h hf m hm
    cases i with
    | zero =>
      rcases List.mem_cons.mp hm with h1 | h1
      · exact h1 ▸ hf a (h a (List.mem_cons_self _ _))
      · exact h m (List.mem_cons_of_mem _ h1)
    | succ n =>
      rcases List.mem_cons.mp hm with h1 | h1
      · exact h1 ▸ h a (List.mem_cons_self _ _)
      · exact ih n f (fun x hx => h x (List.mem_cons_of_mem _ hx)) hf m h1

/-- Member-wise property preservation through `done`. -/
theorem done_pres (P : Mirror → Prop) (u : String) (t : ℚ) (cl : ℤ) :
    ∀ (s : List Mirror), (∀ m ∈ s, P m) → (∀ m, P m → P (doneMirror t cl m)) →
      ∀ m ∈ done u t cl s, P m := by
  intro s
  induction s with
  | nil => intro _ _ m hm; cases hm
  | cons a tl ih =>
    intro h hf m hm
    simp only [done] at hm
    split at hm
    · rcases List.mem_cons.mp hm with h1 | h1
      · exact h1 ▸ hf a (h a (List.mem_cons_self _ _))
      · exact h m (List.mem_cons_of_mem _ h1)
    · rcases List.mem_cons.mp hm with h1 | h1
      · exact h1 ▸ h a (List.mem_cons_self _ _)
      · exact ih (fun x hx => h x (List.mem_cons_of_mem _ hx)) hf m h1

/-- Member-wise property preservation through `markDead`. -/
theorem markDead_pres (P : Mirror → Prop) (u : String) :
    ∀ (s : List Mirror), (∀ m ∈ s, P m) →
      (∀ m, P m → P { m with dead := true, load := 0 }) →
      ∀ m ∈ markDead u s, P m := by
  intro s
  induction s with
  | nil => intro _ _ m hm; cases hm
  | cons a tl ih =>
    intro h hf m hm
    simp only [markDead] at hm
    split at hm
    · rcases List.mem_cons.mp hm with h1 | h1
      · exact h1 ▸ hf a (h a (List.mem_cons_self _ _))
      · exact h m (List.mem_cons_of_mem _ h1)
    · rcases List.mem_cons.mp hm with h1 | h1
      · exact h1 ▸ h a (List.mem_cons_self _ _)
      · exact ih (fun x hx => h x (List.mem_cons_of_mem _ hx)) hf m h1

/-- Member-wise property preservation through `resume`. -/
theorem resume_pres (P : Mirror → Prop) (s : List Mirror)
    (h : ∀ m ∈ s, P m) (hf : ∀ m, P m → P { m with dead := false }) :
    ∀ m ∈ resume s, P m := by
  intro m hm
  obtain ⟨x, hx, rfl⟩ := List.mem_map.mp hm
  exact hf x (h x hx)

/-- A successful selection pass increments the load of the mirror at the
selected index and changes nothing else. -/
theorem selectOnce_state {s : List Mirror} {st : ℕ} {r : List Mirror × String}
    (h : selectOnce s st = some r) :
    ∃ i, r.1 = modifyIdx s i (fun x => { x with load := x.load + 1 }) := by
  unfold selectOnce at h
  split at h
  · cases h
  · split at h
    · cases h
    · cases h
      exact ⟨_, rfl⟩

/-- Member-wise invariant preservation through a fuelled `Get`, given that
the invariant survives resurrection and a load increment. -/
theorem getFuel_pres (P : Mirror → Prop)
    (hres : ∀ m, P m → P { m with dead := false })
    (hinc : ∀ m, P m → P { m with load := m.load + 1 }) :
    ∀ (fuel : ℕ) (s : List Mirror) (starts : ℕ → ℕ),
      (∀ m ∈ s, P m) → ∀ m ∈ (getFuel fuel s starts).1, P m := by
  intro fuel
  induction fuel with
  | zero => intro s starts h; exact h
  | succ fuel ih =>
    intro s starts h
    simp only [getFuel]
    split
    · exact h
    · cases hsel : selectOnce s (starts 0) with
      | none =>
        simp only [hsel]
        exact ih (resume s) _ (resume_pres P s h hres)
      | some r =>
        simp only [hsel]
        obtain ⟨i, hi⟩ := selectOnce_state hsel
        rw [hi]
        exact modifyIdx_pres P s i _ h hinc

/-- `Done` with a URL that matches no registered mirror changes nothing. -/
theorem done_no_match (u : String) (t : ℚ) (cl : ℤ) :
    ∀ (s : List Mirror), (∀ m ∈ s, m.url ≠ u) → done u t cl s = s := by
  intro s
  induction s with
  | nil => intro _; rfl
  | cons a tl ih =>
    intro h
    simp only [done]
    rw [if_neg (h a (List.mem_cons_self _ _)), ih (fun m hm => h m (List.mem_cons_of_mem _ hm))]

/-- `MarkDead` with a URL that matches no registered mirror changes
nothing. -/
theorem markDead_no_match (u : String) :
    ∀ (s : List Mirror), (∀ m ∈ s, m.url ≠ u) → markDead u s = s := by
  intro s
  induction s with
  | nil => intro _; rfl
  | cons a tl ih =>
    intro h
    simp only [markDead]
    rw [if_neg (h a (List.mem_cons_self _ _)), ih (fun m hm => h m (List.mem_cons_of_mem _ hm))]

/-- Slash counting distributes over append. -/
theorem slashCount_append (a b : String) :
    slashCount (a ++ b) = slashCount a + slashCount b := by
  simp [slashCount, String.data_append, List.count_append]

/-- A full proxied URL built from a two-slash base and a slash-led path
has at least three slashes. -/
theorem slashCount_fullURL {b p q : String} (hb : slashCount b = 2)
    (hp : p.data.head? = some '/') : 3 ≤ slashCount (fullURL b p q) := by
  have hp1 : 1 ≤ slashCount p := by
    cases hple : p.data with
    | nil => rw [hple] at hp; cases hp
    | cons c tl =>
      rw [hple] at hp
      have hc : c = '/' := by simpa using hp
      subst hc
      simp only [slashCount, hple]
      rw [List.count_cons_self]
      omega
  unfold fullURL
  rw [slashCount_append, slashCount_append]
  omega

/-- Pointwise `≤` between load lists is transitive. -/
theorem loadsLE_trans : ∀ {a b c : List ℤ},
    List.Forall₂ (· ≤ ·) a b → List.Forall₂ (· ≤ ·) b c → List.Forall₂ (· ≤ ·) a c := by
  intro a b c h1
  induction h1 generalizing c with
  | nil => intro h2; cases h2; exact List.Forall₂.nil
  | cons hab htl ih =>
    intro h2
    cases h2 with
    | cons hbc htl2 => exact List.Forall₂.cons (le_trans hab hbc) (ih htl2)

/-- Pointwise `≤` is reflexive. -/
theorem loadsLE_refl (l : List ℤ) : List.Forall₂ (· ≤ ·) l l :=
  List.forall₂_same.mpr (fun _ _ => le_refl _)

/-- Resurrection does not change any load. -/
theorem resume_loads (s : List Mirror) :
    (resume s).map Mirror.load = s.map Mirror.load := by
  induction s with
  | nil => rfl
  | cons a t ih => simp only [resume, List.map_cons] at ih ⊢; rw [ih]

/-- Incrementing one load never decreases any load. -/
theorem modifyIdx_loads_le :
    ∀ (s : List Mirror) (i : ℕ),
      List.Forall₂ (· ≤ ·) (s.map Mirror.load)
        ((modifyIdx s i (fun x => { x with load := x.load + 1 })).map Mirror.load) := by
  intro s
  induction s with
  | nil => intro i; exact List.Forall₂.nil
  | cons a t ih =>
    intro i
    cases i with
    | zero =>
      exact List.Forall₂.cons (by change a.load ≤ a.load + 1; omega) (loadsLE_refl _)
    | succ n =>
      exact List.Forall₂.cons (le_refl _) (ih n)

/-- A fuelled `Get` never decreases any load. -/
theorem getFuel_loads_le :
    ∀ (fuel : ℕ) (s : List Mirror) (starts : ℕ → ℕ),
      List.Forall₂ (· ≤ ·) (s.map Mirror.load)
        (((getFuel fuel s starts).1).map Mirror.load) := by
  intro fuel
  induction fuel with
  | zero => intro s st; exact loadsLE_refl _
  | succ fuel ih =>
    intro s st
    simp only [getFuel]
    split
    · exact loadsLE_refl _
    · cases hsel : selectOnce s (st 0) with
      | none =>
        simp only [hsel]
        have h2 := ih (resume s) (fun j => st (j + 1))
        rw [resume_loads] at h2
        exact h2
      | some r =>
        simp only [hsel]
        obtain ⟨i, hi⟩ := selectOnce_state hsel
        rw [hi]
        exact modifyIdx_loads_le s i

/-- `done` rewrites exactly the first mirror whose URL matches, leaving
the rest of the list unchanged. -/
theorem done_eq_set (u : String) (t : ℚ) (cl : ℤ) :
    ∀ (s : List Mirror) (i : ℕ) (hi : i < s.length),
      (s.get ⟨i, hi⟩).url = u →
      (∀ j (hj : j < i), (s.get ⟨j, lt_trans hj hi⟩).url ≠ u) →
      done u t cl s = s.set i (doneMirror t cl (s.get ⟨i, hi⟩)) := by
  intro s
  induction s with
  | nil => intro i hi; simp at hi
  | cons a tl ih =>
    intro i hi hurl hfirst
    cases i with
    | zero =>
      simp only [List.get] at hurl
      simp only [done, List.set]
      rw [if_pos hurl]
      rfl
    | succ n =>
      have ha : a.url ≠ u := hfirst 0 (Nat.succ_pos n)
      simp only [List.get] at hurl ⊢
      simp only [done, List.set]
      rw [if_neg ha]
      have hn : n < tl.length := by simpa using hi
      rw [ih n hn hurl (fun j hj => hfirst (j + 1) (by omega))]

/-- C6: `Release(url, elapsedSeconds, bytesTransferred)` — `Done` in the
source — updates exactly the first mirror registered under `url`: its
load is decremented by one with a floor at zero, and its weight is
recomputed as `β·load + (1−β)·(bytesTransferred/elapsedSeconds/k)` with
`β = 0.7` and `k = claimK(throughput)`, the spec's three magnitude tiers
(`claimK` transcribes the spec's wording; the source's tier selection is
proved equal to it). The load hypothesis `0 ≤ load` is the reachable-state
invariant established by C9. -/
theorem release_decrements_and_reweights_c6 (s : List Mirror) (u : String) (t : ℚ) (cl : ℤ)
    (i : ℕ) (hi : i < s.length) (hurl : (s.get ⟨i, hi⟩).url = u)
    (hfirst : ∀ j (hj : j < i), (s.get ⟨j, lt_trans hj hi⟩).url ≠ u)
    (hload : 0 ≤ (s.get ⟨i, hi⟩).load) :
    done u t cl s = s.set i (doneMirror t cl (s.get ⟨i, hi⟩)) ∧
    (doneMirror t cl (s.get ⟨i, hi⟩)).load = max ((s.get ⟨i, hi⟩).load - 1) 0 ∧
    (doneMirror t cl (s.get ⟨i, hi⟩)).weight =
      (7 / 10) * ((doneMirror t cl (s.get ⟨i, hi⟩)).load : ℚ) +
        (3 / 10) * ((cl : ℚ) / t / claimK ((cl : ℚ) / t)) := by
  refine ⟨done_eq_set u t cl s i hi hurl hfirst, ?_, ?_⟩
  · show (if 0 < (s.get ⟨i, hi⟩).load then (s.get ⟨i, hi⟩).load - 1 else (s.get ⟨i, hi⟩).load) =
      max ((s.get ⟨i, hi⟩).load - 1) 0
    split <;> omega
  · show (7 / 10) * ((if 0 < (s.get ⟨i, hi⟩).load then (s.get ⟨i, hi⟩).load - 1
        else (s.get ⟨i, hi⟩).load : ℤ) : ℚ) +
      (3 / 10) * ((cl : ℚ) / t /
        (if 1000000000 < (cl : ℚ) / t then 1000
         else if 1000000 < (cl : ℚ) / t then 100000 else 1000000)) = _
    rfl

/-- Witness for C6 at a concrete state: one mirror `"a"` with load 2 and
a transfer of 10^7 bytes in 2 seconds (throughput 5·10^6, middle tier). -/
theorem release_decrements_and_reweights_c6_witness :
    done "a" 2 10000000 [⟨"a", false, 2, 1⟩] =
      [doneMirror 2 10000000 ⟨"a", false, 2, 1⟩] ∧
    (doneMirror 2 10000000 (⟨"a", false, 2, 1⟩ : Mirror)).load = max (2 - 1) 0 ∧
    (doneMirror 2 10000000 (⟨"a", false, 2, 1⟩ : Mirror)).weight =
      (7 / 10) * ((doneMirror 2 10000000 (⟨"a", false, 2, 1⟩ : Mirror)).load : ℚ) +
        (3 / 10) * ((10000000 : ℚ) / 2 / claimK ((10000000 : ℚ) / 2)) := by
  have h := release_decrements_and_reweights_c6 [⟨"a", false, 2, 1⟩] "a" 2 10000000 0
    (by norm_num) rfl (fun j hj => by omega) (by norm_num)
  exact ⟨h.1, h.2.1, h.2.2⟩

set_option maxRecDepth 4000 in
/-- C5: after a failed attempt the selected mirror is NOT marked dead. On
a transport error the `MarkDead` call in the source is commented out; on a
404 both `Done` and `MarkDead` receive `proxyURL.String()` — the full
proxied URL — which matches no registered base URL, so they touch
nothing. In both runs below the lone mirror ends alive (`dead = false`),
with its acquired load still 1 and weight 1, while the loop continues
(result `none` means a further attempt is underway), where the claim says
`alive = false` and `load = 0` until the next resurrection. -/
theorem failed_attempt_leaves_mirror_alive_c5 :
    forwardLoop (fun _ => Outcome.transportErr) (fun _ _ => 0)
        "/v2/library/x/blobs/sha256:ab" "" 1 1 0 0 oneMirror =
      ([⟨"https://yanyu.icu", false, 1, 1⟩], none) ∧
    forwardLoop (fun _ => Outcome.resp 404 0 1) (fun _ _ => 0)
        "/v2/library/x/blobs/sha256:ab" "" 1 1 0 0 oneMirror =
      ([⟨"https://yanyu.icu", false, 1, 1⟩], none) := by
  constructor <;> decide

set_option maxRecDepth 4000 in
/-- C2: the retry budget is never enforced. `tickets` is incremented only
inside `defer func() { tickets++ }()`, and deferred calls run when
`proxyRequest` returns, so during the loop `tickets` stays 0 and the
`tickets >= 6` guard never fires. With every upstream attempt failing
(transport error each time), after 7 iterations the loop is still running
(`none`) and has made 7 upstream attempts — the mirror's load, incremented
once per `Get`, is 7 — where the claim says at most 6 attempts and then a
transition to failed. -/
theorem retry_budget_not_enforced_c2 :
    forwardLoop (fun _ => Outcome.transportErr) (fun _ _ => 0)
        "/v2/library/x/blobs/sha256:ab" "" 1 7 0 0 oneMirror =
      ([⟨"https://yanyu.icu", false, 7, 1⟩], none) := by
  decide

/-- A dead mirror is skipped by the selection scan. -/
theorem dead_mirror_not_selected (start : ℕ) :
    selectOnce [⟨"m", true, 0, 0⟩] start = none := by
  simp [selectOnce, scanSel, scanIdx, scanStep, show List.range 1 = [0] from rfl, Nat.mod_one]

/-- An alive mirror with weight exactly 0 and load 0 is never selected:
its ratio `0/0` is NaN, and `NaN < minLoadRatio` is false. -/
theorem zero_weight_never_selected (start : ℕ) :
    selectOnce [⟨"m", false, 0, 0⟩] start = none := by
  simp [selectOnce, scanSel, scanIdx, scanStep, show List.range 1 = [0] from rfl, Nat.mod_one, mkRatio, frLt]

/-- After resurrection the zero-weight state is a fixed point on which
`Get` spins forever. -/
theorem getFuel_zero_weight_stuck :
    ∀ (fuel : ℕ) (starts : ℕ → ℕ),
      getFuel fuel [⟨"m", false, 0, 0⟩] starts = ([⟨"m", false, 0, 0⟩], none) := by
  intro fuel
  induction fuel with
  | zero => intro starts; rfl
  | succ fuel ih =>
    intro starts
    simp only [getFuel, zero_weight_never_selected]
    rw [if_neg (by simp)]
    exact ih _

/-- C1: `Acquire` need not terminate, and past any number of resurrection
passes it never returns "unavailable". `allDeadZeroWeight` is reached
through the public interface (`AddURL "m"`; `Done "m" 1 0`, which sets the
weight to exactly 0; `MarkDead "m"`). From it, every scan fails — the
mirror is dead, and after `resume` its ratio `0/0` is NaN, which is never
below `minLoadRatio` — so `Get` resumes and rescans forever: for every
fuel the loop has neither produced a URL nor returned "unavailable"
(which the source returns only when zero mirrors are registered). -/
theorem acquire_can_loop_forever_c1 :
    ∀ (fuel : ℕ) (starts : ℕ → ℕ),
      (getFuel fuel allDeadZeroWeight starts).2 = none := by
  intro fuel starts
  have hstate : allDeadZeroWeight = [⟨"m", true, 0, 0⟩] := by decide
  cases fuel with
  | zero => rfl
  | succ fuel =>
    rw [hstate]
    simp only [getFuel, dead_mirror_not_selected]
    rw [if_neg (by simp)]
    have hres : resume [(⟨"m", true, 0, 0⟩ : Mirror)] = [⟨"m", false, 0, 0⟩] := rfl
    rw [hres, getFuel_zero_weight_stuck]

/-- C3: the background verification pass is a no-op on the entries the
writer actually creates. `proxyRequest` hands `checkCacheFileSize` the
already-resolved cache file path (`cache/ab.dat`); the function then
recomputes `getCacheFilePath` of it — `cache/ab.dat.dat` — and a record
path `cache/ab.dat.dat_record.txt`, neither of which exists, and returns
without hashing or deleting anything, for every hash function and in
particular when the stored bytes do not hash to the key. A subsequent
read of the same path still serves the corrupt bytes instead of
not-found. -/
theorem verify_never_deletes_c3 :
    ∀ (hash : List ℕ → String) (cl : ℤ), hash [1, 2, 3] ≠ "ab" →
      checkCacheFileSize hash corruptFlatFS "cache/ab.dat" (some cl) = corruptFlatFS ∧
      serveFromCache corruptFlatFS "cache/ab.dat" = (true, [1, 2, 3]) := by
  intro hash cl _
  exact ⟨rfl, rfl⟩

/-- Witness for C3 with a concrete (mismatching) hash function. -/
theorem verify_never_deletes_c3_witness :
    ((fun _ : List ℕ => "zz") [1, 2, 3] ≠ "ab") ∧
    checkCacheFileSize (fun _ => "zz") corruptFlatFS "cache/ab.dat" (some 3) = corruptFlatFS ∧
    serveFromCache corruptFlatFS "cache/ab.dat" = (true, [1, 2, 3]) :=
  ⟨by decide, (verify_never_deletes_c3 (fun _ => "zz") 3 (by decide)).1,
    (verify_never_deletes_c3 (fun _ => "zz") 3 (by decide)).2⟩

/-- C9: across every sequence and interleaving of `Acquire`, `Release`
and `MarkDead` calls from the initial registered state, every mirror's
load stays a nonnegative integer: `Get` only increments the selected
load, `Done` decrements only when the load is positive, and `MarkDead`
resets it to zero. -/
theorem load_never_negative_c9 :
    ∀ (us : List String) (es : List Event), ∀ m ∈ runEvents (mkInit us) es, 0 ≤ m.load := by
  intro us es
  have base : ∀ m ∈ mkInit us, 0 ≤ m.load := by
    intro m hm
    obtain ⟨u, _, rfl⟩ := List.mem_map.mp hm
    exact le_refl 0
  have step : ∀ (es' : List Event) (s : List Mirror),
      (∀ m ∈ s, 0 ≤ m.load) → ∀ m ∈ runEvents s es', 0 ≤ m.load := by
    intro es'
    induction es' with
    | nil => intro s hs; exact hs
    | cons e tl ih =>
      intro s hs
      refine ih (applyEvent s e) ?_
      cases e with
      | acquire starts fuel =>
        refine getFuel_pres (fun m => 0 ≤ m.load) ?_ ?_ fuel s starts hs
        · intro m hm; exact hm
        · intro m hm
          change 0 ≤ m.load + 1
          omega
      | release u t cl =>
        refine done_pres (fun m => 0 ≤ m.load) u t cl s hs ?_
        intro m hm
        change 0 ≤ (if 0 < m.load then m.load - 1 else m.load)
        split <;> omega
      | markDead u =>
        refine markDead_pres (fun m => 0 ≤ m.load) u s hs ?_
        intro m _
        change (0 : ℤ) ≤ 0
        omega
  exact step es (mkInit us) base

/-- Witness for C9 on a concrete interleaving: acquire, release with a
zero-length transfer, then mark dead. -/
theorem load_never_negative_c9_witness :
    0 ≤ ((runEvents (mkInit ["a"])
        [Event.acquire (fun _ => 0) 2, Event.release "a" 1 0, Event.markDead "a"]).headD
      ⟨"", false, 0, 0⟩).load :=
  load_never_negative_c9 ["a"]
    [Event.acquire (fun _ => 0) 2, Event.release "a" 1 0, Event.markDead "a"] _ (by decide)

/-- A lookup that misses the front of an association list falls through
to the back. -/
theorem fsGet_append_right {a : FS} (b : FS) {k : String} (h : fsGet a k = none) :
    fsGet (a ++ b) k = fsGet b k := by
  induction a with
  | nil => rfl
  | cons e t ih =>
    obtain ⟨p, d⟩ := e
    simp only [fsGet] at h
    split at h
    · cases h
    · show fsGet ((p, d) :: (t ++ b)) k = fsGet b k
      simp only [fsGet]
      rw [if_neg (by assumption), ih h]

/-- The writer's part files never collide with its record path, so the
record entry is found. -/
theorem splitWriteFs_record (chunks : List (List ℕ)) :
    fsGet (splitWriteFs reqPath chunks) (getRecordFilePath reqPath) =
      some (FileData.record (szOf (splitWrite reqPath chunks)).part
        (szOf (splitWrite reqPath chunks)).total) := by
  unfold splitWriteFs
  rw [fsGet_append_right]
  · simp only [fsGet, if_pos]
    rfl
  · apply fsGet_eq_none
    intro e he
    obtain ⟨x, hx, rfl⟩ := List.mem_map.mp he
    obtain ⟨i, hi⟩ := splitWrite_keys reqPath chunks x hx
    show x.1 ≠ _
    rw [hi]
    exact partPath_ne_writerRec i

/-- C4: writing a 250 MiB body (4000 full 64 KiB reads) through the split
path produces exactly 3 part files of 104857600, 104857600 and 52428800
bytes with final part counter 3 — but the record file then states
`TotalSize: 52428800`, the size of the last part only, because the source
resets `totalReadSize` to zero at every part roll; the claimed total
262144000 is not what is recorded. -/
theorem record_states_last_part_size_c4 :
    szOf (splitWrite reqPath reads250) = ⟨[104857600, 104857600, 52428800], 3, 52428800⟩ ∧
    fsGet (splitWriteFs reqPath reads250) (getRecordFilePath reqPath) =
      some (FileData.record 3 52428800) ∧
    (52428800 : ℕ) ≠ 262144000 := by
  have h1 : szOf (splitWrite reqPath reads250) =
      ⟨[104857600, 104857600, 52428800], 3, 52428800⟩ := by
    rw [szOf_splitWrite]
    have hmap : reads250.map (fun b => b.length) = List.replicate 4000 65536 := by
      simp only [reads250, List.map_replicate, List.length_replicate]
    rw [hmap, szFinal]
  refine ⟨h1, ?_, by norm_num⟩
  rw [splitWriteFs_record, h1]

/-- C7: the split-path round trip fails. After a split write for
`reqPath`, the reader is called on the flat cache file path
`cache/ab.dat`; it looks for a record at
`getRecordFilePath("cache/ab.dat") = "cache/ab.dat_record.txt"`, while
the writer created `"cache/ab_record.txt"`, and then for a flat file at
`"cache/ab.dat"`, which a split write never creates — so for every body
of size 3 × `chunkSize` (or any other split body) the read-back is a cache
miss `(false, [])` with no bytes served, not the byte-identical content
the claim requires. -/
theorem split_roundtrip_misses_c7 :
    ∀ (chunks : List (List ℕ)), (chunks.map (fun b => b.length)).sum = 3 * chunkSize →
      serveFromCache (splitWriteFs reqPath chunks) (getCacheFilePath reqPath) = (false, []) := by
  intro chunks _
  have hkeys := splitWrite_keys reqPath chunks
  have hrec : fsGet (splitWriteFs reqPath chunks)
      (getRecordFilePath (getCacheFilePath reqPath)) = none := by
    apply fsGet_eq_none
    intro e he
    simp only [splitWriteFs] at he
    rcases List.mem_append.mp he with h | h
    · obtain ⟨x, hx, rfl⟩ := List.mem_map.mp h
      obtain ⟨i, hi⟩ := hkeys x hx
      show x.1 ≠ _
      rw [hi, show getRecordFilePath (getCacheFilePath reqPath) =
        "cache/ab.dat_record.txt" from rfl]
      exact partPath_ne_readRec i
    · rw [List.mem_singleton] at h
      rw [h]
      show getRecordFilePath reqPath ≠ getRecordFilePath (getCacheFilePath reqPath)
      decide
  have hflat : fsGet (splitWriteFs reqPath chunks) (getCacheFilePath reqPath) = none := by
    apply fsGet_eq_none
    intro e he
    simp only [splitWriteFs] at he
    rcases List.mem_append.mp he with h | h
    · obtain ⟨x, hx, rfl⟩ := List.mem_map.mp h
      obtain ⟨i, hi⟩ := hkeys x hx
      show x.1 ≠ _
      rw [hi, show getCacheFilePath reqPath = "cache/ab.dat" from rfl]
      exact partPath_ne_readFlat i
    · rw [List.mem_singleton] at h
      rw [h]
      show getRecordFilePath reqPath ≠ getCacheFilePath reqPath
      decide
  simp only [serveFromCache, hrec, hflat]

/-- Witness for C7: 4800 full 64 KiB reads, a body of exactly
3 × `chunkSize` = 314572800 bytes. -/
theorem split_roundtrip_misses_c7_witness :
    ((reads300.map (fun b => b.length)).sum = 3 * chunkSize) ∧
    serveFromCache (splitWriteFs reqPath reads300) (getCacheFilePath reqPath) = (false, []) := by
  have hsum : (reads300.map (fun b => b.length)).sum = 3 * chunkSize := by
    simp only [reads300, List.map_replicate, List.length_replicate, List.sum_replicate,
      smul_eq_mul, chunkSize]
  exact ⟨hsum, split_roundtrip_misses_c7 reads300 hsum⟩

/-- C8 (amended): when a record file exists under the reader's naming,
`serveFromCache` opens and concatenates parts `0..count-1` in strict
order, and otherwise serves the flat file; a missing expected file makes
it report not-found (`false`) — but in the split mode the parts BEFORE
the missing one have already been streamed to the client at that point,
so partial bytes can be delivered along with the not-found result. -/
theorem read_modes_c8 (fs : FS) (path : String) :
    (∀ p t, fsGet fs (getRecordFilePath path) = some (FileData.record p t) →
      ((∀ j, j < p → (fsGet fs (getCacheFilePathWithPart path j)).isSome) →
        serveFromCache fs path = (true, segBytes fs path 0 p)) ∧
      (∀ k, k < p → (∀ j, j < k → (fsGet fs (getCacheFilePathWithPart path j)).isSome) →
        fsGet fs (getCacheFilePathWithPart path k) = none →
        serveFromCache fs path = (false, segBytes fs path 0 k))) ∧
    (fsGet fs (getRecordFilePath path) = none →
      (fsGet fs path = none → serveFromCache fs path = (false, [])) ∧
      (∀ fd, fsGet fs path = some fd → serveFromCache fs path = (true, fd.asBytes))) := by
  constructor
  · intro p t hrec
    constructor
    · intro hall
      have hall' : ∀ j, j < p → (fsGet fs (getCacheFilePathWithPart path (0 + j))).isSome := by
        intro j hj
        rw [Nat.zero_add]
        exact hall j hj
      simp only [serveFromCache, hrec, FileData.scanRecord]
      exact readParts_all fs path p 0 hall'
    · intro k hk hsome hmiss
      have hsome' : ∀ j, j < k → (fsGet fs (getCacheFilePathWithPart path (0 + j))).isSome := by
        intro j hj
        rw [Nat.zero_add]
        exact hsome j hj
      have hmiss' : fsGet fs (getCacheFilePathWithPart path (0 + k)) = none := by
        rw [Nat.zero_add]
        exact hmiss
      simp only [serveFromCache, hrec, FileData.scanRecord]
      exact readParts_missing fs path k p 0 hk hsome' hmiss'
  · intro hrec
    refine ⟨fun hflat => ?_, fun fd hflat => ?_⟩
    · simp only [serveFromCache, hrec, hflat]
    · simp only [serveFromCache, hrec, hflat]

/-- Witness for C8 on concrete split entries: with part 1 missing the
reader stops with not-found after streaming part 0; with both parts
present it streams both in order. -/
theorem read_modes_c8_witness :
    serveFromCache truncatedFS "cache/ab.dat" =
      (false, segBytes truncatedFS "cache/ab.dat" 0 1) ∧
    serveFromCache completeFS "cache/ab.dat" =
      (true, segBytes completeFS "cache/ab.dat" 0 2) := by
  constructor
  · refine ((read_modes_c8 truncatedFS "cache/ab.dat").1 2 4 rfl).2 1 (by decide) ?_ rfl
    intro j hj
    have h0 : j = 0 := by omega
    subst h0
    decide
  · refine ((read_modes_c8 completeFS "cache/ab.dat").1 2 4 rfl).1 ?_
    intro j hj
    have h01 : j = 0 ∨ j = 1 := by omega
    rcases h01 with h | h <;> subst h <;> decide

/-- C8 counterexample to the claim as stated: the truncated split entry
yields not-found, but the two bytes of part 0 have already been written
to the client — partial bytes are delivered. -/
theorem truncated_stream_c8_counterexample :
    serveFromCache truncatedFS "cache/ab.dat" = (false, [9, 8]) ∧ ([9, 8] : List ℕ) ≠ [] := by
  exact ⟨rfl, by decide⟩

/-- Along any proxy-shaped call sequence, every mirror stays alive with
weight 1 (and keeps its two-slash base URL): the full proxied URLs that
`Done`/`MarkDead` receive have at least three slashes and so match no
registered mirror by exact string equality. -/
theorem runP_inv :
    ∀ (es : List PEvent) (s : List Mirror),
      (∀ e ∈ es, baseOk e = true) →
      (∀ m ∈ s, m.dead = false ∧ m.weight = 1 ∧ slashCount m.url = 2) →
      ∀ m ∈ runP s es, m.dead = false ∧ m.weight = 1 ∧ slashCount m.url = 2 := by
  intro es
  induction es with
  | nil => intro s _ hs; exact hs
  | cons e tl ih =>
    intro s hok hs
    refine ih (applyP s e) (fun x hx => hok x (List.mem_cons_of_mem _ hx)) ?_
    have he := hok e (List.mem_cons_self _ _)
    cases e with
    | acquire starts fuel =>
      refine getFuel_pres _ ?_ ?_ fuel s starts hs
      · intro m hm
        exact ⟨rfl, hm.2.1, hm.2.2⟩
      · intro m hm
        exact ⟨hm.1, hm.2.1, hm.2.2⟩
    | release b p q t cl =>
      simp only [baseOk, Bool.and_eq_true, beq_iff_eq] at he
      have hnm : ∀ m ∈ s, m.url ≠ fullURL b p q := by
        intro m hm heq
        have h2 := (hs m hm).2.2
        have h3 := slashCount_fullURL (b := b) (p := p) (q := q) he.1 (by
          rw [show (Option.some '/' : Option Char) = some '/' from rfl] at he
          exact of_decide_eq_true (by rw [decide_eq_true_eq]; exact he.2))
        rw [heq] at h2
        omega
      show ∀ m ∈ done (fullURL b p q) t cl s, _
      rw [done_no_match _ _ _ s hnm]
      exact hs
    | markDead b p q =>
      simp only [baseOk, Bool.and_eq_true, beq_iff_eq] at he
      have hnm : ∀ m ∈ s, m.url ≠ fullURL b p q := by
        intro m hm heq
        have h2 := (hs m hm).2.2
        have h3 := slashCount_fullURL (b := b) (p := p) (q := q) he.1 he.2
        rw [heq] at h2
        omega
      show ∀ m ∈ markDead (fullURL b p q) s, _
      rw [markDead_no_match _ s hnm]
      exact hs

/-- Along any proxy-shaped call sequence, no mirror's load ever
decreases. -/
theorem runP_loads_mono :
    ∀ (es : List PEvent) (s : List Mirror),
      (∀ e ∈ es, baseOk e = true) →
      (∀ m ∈ s, m.dead = false ∧ m.weight = 1 ∧ slashCount m.url = 2) →
      List.Forall₂ (· ≤ ·) (s.map Mirror.load) ((runP s es).map Mirror.load) := by
  intro es
  induction es with
  | nil => intro s _ _; exact loadsLE_refl _
  | cons e tl ih =>
    intro s hok hs
    have hstep1 : ∀ m ∈ runP s [e], m.dead = false ∧ m.weight = 1 ∧ slashCount m.url = 2 :=
      runP_inv [e] s (by
        intro x hx
        rw [List.mem_singleton] at hx
        rw [hx]
        exact hok e (List.mem_cons_self _ _)) hs
    have hmono1 : List.Forall₂ (· ≤ ·) (s.map Mirror.load) ((applyP s e).map Mirror.load) := by
      have he := hok e (List.mem_cons_self _ _)
      cases e with
      | acquire starts fuel => exact getFuel_loads_le fuel s starts
      | release b p q t cl =>
        simp only [baseOk, Bool.and_eq_true, beq_iff_eq] at he
        have hnm : ∀ m ∈ s, m.url ≠ fullURL b p q := by
          intro m hm heq
          have h2 := (hs m hm).2.2
          have h3 := slashCount_fullURL (b := b) (p := p) (q := q) he.1 he.2
          rw [heq] at h2
          omega
        show List.Forall₂ _ _ ((done (fullURL b p q) t cl s).map Mirror.load)
        rw [done_no_match _ _ _ s hnm]
        exact loadsLE_refl _
      | markDead b p q =>
        simp only [baseOk, Bool.and_eq_true, beq_iff_eq] at he
        have hnm : ∀ m ∈ s, m.url ≠ fullURL b p q := by
          intro m hm heq
          have h2 := (hs m hm).2.2
          have h3 := slashCount_fullURL (b := b) (p := p) (q := q) he.1 he.2
          rw [heq] at h2
          omega
        show List.Forall₂ _ _ ((markDead (fullURL b p q) s).map Mirror.load)
        rw [markDead_no_match _ s hnm]
        exact loadsLE_refl _
    refine loadsLE_trans hmono1 ?_
    refine ih (applyP s e) (fun x hx => hok x (List.mem_cons_of_mem _ hx)) ?_
    intro m hm
    exact hstep1 m hm

/-- C10 (implicit): in the composed proxy, `Done` and `MarkDead` are
called with the full proxied URL while mirrors are registered under
scheme-and-host base URLs and matched by exact string equality, so across
every sequence of forwarded requests with a nonempty (slash-led) path no
such call matches a mirror: every mirror's alive flag stays true
(`dead = false`), its weight stays 1, and its load is never decremented
(loads are pointwise monotone along every prefix of the trace). -/
theorem full_url_matches_nothing_c10 :
    ∀ (us : List String) (es : List PEvent),
      (∀ u ∈ us, slashCount u = 2) →
      (∀ e ∈ es, baseOk e = true) →
      (∀ m ∈ runP (mkInit us) es, m.dead = false ∧ m.weight = 1) ∧
      (∀ es₁ es₂, es = es₁ ++ es₂ →
        List.Forall₂ (· ≤ ·) ((runP (mkInit us) es₁).map Mirror.load)
          ((runP (mkInit us) es).map Mirror.load)) := by
  intro us es hus hok
  have hbase : ∀ m ∈ mkInit us, m.dead = false ∧ m.weight = 1 ∧ slashCount m.url = 2 := by
    intro m hm
    obtain ⟨u, hu, rfl⟩ := List.mem_map.mp hm
    exact ⟨rfl, rfl, hus u hu⟩
  constructor
  · intro m hm
    have h := runP_inv es (mkInit us) hok hbase m hm
    exact ⟨h.1, h.2.1⟩
  · intro es₁ es₂ hsplit
    subst hsplit
    show List.Forall₂ _ _ ((List.foldl applyP (mkInit us) (es₁ ++ es₂)).map Mirror.load)
    rw [List.foldl_append]
    refine runP_loads_mono es₂ (runP (mkInit us) es₁) ?_ ?_
    · intro e heq
      exact hok e (List.mem_append_right _ heq)
    · exact runP_inv es₁ (mkInit us) (fun e he => hok e (List.mem_append_left _ he)) hbase

/-- Witness for C10 on a concrete trace: a forwarded request against the
mirror base `https://a.b` whose `Done` and `MarkDead` carry the full URL
`https://a.b/v2/x`; the mirror ends alive with weight 1. -/
theorem full_url_matches_nothing_c10_witness :
    ((runP (mkInit ["https://a.b"])
        [PEvent.release "https://a.b" "/v2/x" "" 1 5,
         PEvent.markDead "https://a.b" "/v2/x" ""]).headD ⟨"", true, 0, 0⟩).dead = false ∧
    ((runP (mkInit ["https://a.b"])
        [PEvent.release "https://a.b" "/v2/x" "" 1 5,
         PEvent.markDead "https://a.b" "/v2/x" ""]).headD ⟨"", true, 0, 0⟩).weight = 1 :=
  (full_url_matches_nothing_c10 ["https://a.b"]
    [PEvent.release "https://a.b" "/v2/x" "" 1 5,
     PEvent.markDead "https://a.b" "/v2/x" ""]
    (by decide) (by decide)).1 _ (by decide)
